import Mathlib

/-!
# Verification of the discrete-time LQR Riccati solver (`lqr_solve.cpp`)

A shallow embedding of `compGainMatrix` from `src/lqr_solve.cpp`.  The C++
code works on `Eigen::Matrix<double, Dynamic, Dynamic>`: dense matrices whose
row and column counts are runtime data.  We model such a matrix as a `Mtx`
structure carrying its runtime dimensions together with a total entry
function; entries are exact rationals standing in for the C++ `double`s
(the algorithm is pure arithmetic, so its control structure is independent
of the rounding of the underlying reals).

The C++ iteration is an unbounded `while (true)` loop, which may genuinely
diverge, so the embedding runs the loop on explicit fuel: a result of
`none` means the loop has not returned within that many iterations, and
"the call returns r" is rendered as `∃ fuel, … = some r`.
-/

/-- Dynamically sized dense matrix, mirroring the `Mtx` typedef of the C++
source (`Matrix<double, Dynamic, Dynamic>`).  `entry i j` is meaningful for
`i < rows`, `j < cols`; out-of-range indices are unconstrained, exactly as
out-of-range Eigen accesses are meaningless. -/
structure Mtx where
  rows : Nat
  cols : Nat
  entry : Nat → Nat → ℚ

namespace Mtx

/-- `B.transpose()` of Eigen. -/
def transpose (M : Mtx) : Mtx := ⟨M.cols, M.rows, fun i j => M.entry j i⟩

/-- Eigen matrix sum (defined on equal-shaped operands; shapes are taken
from the left operand). -/
def add (M P : Mtx) : Mtx := ⟨M.rows, M.cols, fun i j => M.entry i j + P.entry i j⟩

/-- Eigen matrix difference. -/
def sub (M P : Mtx) : Mtx := ⟨M.rows, M.cols, fun i j => M.entry i j - P.entry i j⟩

/-- Eigen matrix product: `(M * P) i j = Σ_{k < cols M} M i k * P k j`. -/
def mul (M P : Mtx) : Mtx :=
  ⟨M.rows, P.cols, fun i j => ((List.range M.cols).map fun k => M.entry i k * P.entry k j).sum⟩

instance : Add Mtx := ⟨add⟩

instance : Sub Mtx := ⟨sub⟩

instance : Mul Mtx := ⟨mul⟩

/-- All entries of `M`, row major. -/
def entriesList (M : Mtx) : List ℚ :=
  (List.range M.rows).flatMap fun i => (List.range M.cols).map fun j => M.entry i j

/-- Eigen's `maxCoeff()`: the largest (signed) coefficient.  On an empty
matrix Eigen's `maxCoeff` is an assertion failure, so the `0` returned for
that case is an arbitrary model value never relied upon. -/
def maxCoeff (M : Mtx) : ℚ :=
  match M.entriesList with
  | [] => 0
  | x :: xs => xs.foldl max x

/-- Row-major list-of-rows view of the in-range entries, used to compute
determinants. -/
def toLists (M : Mtx) : List (List ℚ) :=
  (List.range M.rows).map fun i => (List.range M.cols).map fun j => M.entry i j

/-- Determinant of a list-of-rows square matrix by Laplace expansion along
the first row; the `Nat` argument is structural fuel (always instantiated
with the row count, see `detL`). -/
def detN : Nat → List (List ℚ) → ℚ
  | _, [] => 1
  | 0, _ :: _ => 0
  | n + 1, r :: rs =>
    (List.range r.length).foldl
      (fun acc j => acc + (-1 : ℚ) ^ j * r.getD j 0 * detN n (rs.map fun row => row.eraseIdx j)) 0

/-- Determinant of a list-of-rows square matrix. -/
def detL (L : List (List ℚ)) : ℚ := detN L.length L

/-- Eigen's `.inverse()` on a square matrix, via the adjugate formula
`A⁻¹ = det(A)⁻¹ · adj(A)`, `adj(A) i j = (-1)^(i+j) det(minor j i)`.
Eigen's inverse of a singular matrix is numeric garbage (an unchecked
precondition per the design); here `(0 : ℚ)⁻¹ = 0` makes the result the
zero matrix in that unchecked case. -/
def inv (M : Mtx) : Mtx :=
  ⟨M.rows, M.rows, fun i j =>
    (detL M.toLists)⁻¹ * (-1 : ℚ) ^ (i + j) *
      detL ((M.toLists.eraseIdx j).map fun row => row.eraseIdx i)⟩

end Mtx

/-- The dimension-compatibility test of lines 35–37 of `lqr_solve.cpp`:
the disjunction of the eight mismatch conditions under which
`compGainMatrix` prints a message and returns `false`. -/
def dimsMismatch (A B Q R N : Mtx) : Prop :=
  A.rows ≠ A.cols ∨ B.rows ≠ A.rows ∨ Q.rows ≠ Q.cols ∨ Q.rows ≠ A.rows ∨
    R.rows ≠ R.cols ∨ R.rows ≠ B.cols ∨ N.rows ≠ A.rows ∨ N.cols ≠ B.cols

instance (A B Q R N : Mtx) : Decidable (dimsMismatch A B Q R N) := by
  unfold dimsMismatch; infer_instance

/-- `Acal = A - B * R.inverse() * N.transpose()` (line 45). -/
def Acal (A B R N : Mtx) : Mtx := A - B * Mtx.inv R * N.transpose

/-- `Qcal = Q - N * R.inverse() * N.transpose()` (line 47). -/
def Qcal (Q R N : Mtx) : Mtx := Q - N * Mtx.inv R * N.transpose

/-- The loop body's update of `P` (lines 59–60):
`P = Acal_T * P * Acal - Acal_T * P * B * (R + B_T * P * B).inverse() * B_T * P * Acal + Qcal`. -/
def riccatiUpdate (Ac AcT B BT R Qc P : Mtx) : Mtx :=
  AcT * P * Ac - AcT * P * B * Mtx.inv (R + BT * P * B) * BT * P * Ac + Qc

/-- The `while (true)` loop of lines 55–70, on explicit fuel.  The loop
state is `(P, Pold, numIterations)`; each pass increments the counter,
updates `P`, and breaks when `fabs(delta.maxCoeff()) < eps` for
`delta = P - Pold`, otherwise sets `Pold = P` and continues.  `none` means
the loop has not broken within `fuel` passes. -/
def riccatiLoop (Ac AcT B BT R Qc : Mtx) (eps : ℚ) :
    Nat → Mtx → Mtx → Nat → Option (Mtx × Nat)
  | 0, _, _, _ => none
  | fuel + 1, P, Pold, numIterations =>
    let Pnew := riccatiUpdate Ac AcT B BT R Qc P
    if |(Pnew - Pold).maxCoeff| < eps then some (Pnew, numIterations + 1)
    else riccatiLoop Ac AcT B BT R Qc eps fuel Pnew Pnew (numIterations + 1)

/-- The whole of `compGainMatrix` (lines 32–76).  The C++ routine takes the
output matrix by pointer and returns a `bool`; the model takes the prior
contents `K0` of that output and returns `(flag, contents of *K, iteration
count)`, so that non-writes on the failure path are visible.  The iteration
count is the value the success path prints (`0` on the failure path, where
the C++ counter is never created).  A `none` result means the call has not
returned within `fuel` loop passes. -/
def compGainMatrix (A B Q R N : Mtx) (K0 : Mtx) (eps : ℚ) (fuel : Nat) :
    Option (Bool × Mtx × Nat) :=
  if dimsMismatch A B Q R N then some (false, K0, 0)
  else
    match riccatiLoop (Acal A B R N) (Acal A B R N).transpose B B.transpose R (Qcal Q R N)
        eps fuel Q Q 0 with
    | none => none
    | some (P, numIterations) =>
      some (true, Mtx.inv (R + B.transpose * P * B) * (B.transpose * P * A + N.transpose),
        numIterations)

/-- The sequence of iterates of the recurrence: `Pseq 0 = Q` (line 50) and
`Pseq (k+1)` is the loop body's update of `Pseq k`. -/
def Pseq (A B Q R N : Mtx) : Nat → Mtx
  | 0 => Q
  | k + 1 =>
    riccatiUpdate (Acal A B R N) (Acal A B R N).transpose B B.transpose R (Qcal Q R N)
      (Pseq A B Q R N k)

/-- The stopping test evaluated on the `k+1`-st loop pass: at that point
`P = Pseq (k+1)` and `Pold = Pseq k`, and the loop breaks exactly when
`fabs(delta.maxCoeff()) < eps`. -/
def stopAt (A B Q R N : Mtx) (eps : ℚ) (k : Nat) : Prop :=
  |(Pseq A B Q R N (k + 1) - Pseq A B Q R N k).maxCoeff| < eps

instance (A B Q R N : Mtx) (eps : ℚ) (k : Nat) : Decidable (stopAt A B Q R N eps k) := by
  unfold stopAt; infer_instance

/-- The convergence measure the spec describes: the infinity-style norm,
i.e. the maximum over all entries of the absolute value. -/
def infNormSpec (M : Mtx) : ℚ :=
  (M.entriesList.map fun x => |x|).foldl max 0

/-- The iteration of spec §4.1, written from the spec's own formulas and
independently of the code's `Acal`/`Qcal` bindings: `P₀ = Q` and
`P_next = Âᵗ·P·Â − Âᵗ·P·B·(R + Bᵗ·P·B)⁻¹·Bᵗ·P·Â + Q̂` where
`Â = A − B·R⁻¹·Nᵗ` and `Q̂ = Q − N·R⁻¹·Nᵗ`. -/
def specIter (A B Q R N : Mtx) : Nat → Mtx
  | 0 => Q
  | k + 1 =>
    Mtx.transpose (A - B * Mtx.inv R * N.transpose) * specIter A B Q R N k *
        (A - B * Mtx.inv R * N.transpose) -
      Mtx.transpose (A - B * Mtx.inv R * N.transpose) * specIter A B Q R N k * B *
        Mtx.inv (R + B.transpose * specIter A B Q R N k * B) * B.transpose *
        specIter A B Q R N k * (A - B * Mtx.inv R * N.transpose) +
      (Q - N * Mtx.inv R * N.transpose)

/-! ## Concrete inputs used to exercise the theorems -/

/-- Scalar test system: `A = [[0]]`. -/
def wA : Mtx := ⟨1, 1, fun _ _ => 0⟩

/-- Scalar test system: `B = [[1]]`. -/
def wB : Mtx := ⟨1, 1, fun _ _ => 1⟩

/-- Scalar test system: `Q = [[1]]`. -/
def wQ : Mtx := ⟨1, 1, fun _ _ => 1⟩

/-- Scalar test system: `R = [[1]]`. -/
def wR : Mtx := ⟨1, 1, fun _ _ => 1⟩

/-- Scalar test system: `N = [[0]]`. -/
def wN : Mtx := ⟨1, 1, fun _ _ => 0⟩

/-- Prior contents of the caller's output matrix in the tests. -/
def wK0 : Mtx := ⟨1, 1, fun _ _ => 42⟩

/-- A 2×2 `R`, shape-incompatible with the 1-column `wB` (the spec's
mismatched-R scenario). -/
def wR2 : Mtx := ⟨2, 2, fun _ _ => 1⟩

/-- 2×2 input family: `A = I₂`. -/
def cxA : Mtx := ⟨2, 2, fun i j => if i = j then 1 else 0⟩

/-- 2×2 input family: `B = 0` (2×1). -/
def cxB : Mtx := ⟨2, 1, fun _ _ => 0⟩

/-- 2×2 input family: `Q = [[-5, 0], [0, 0]]`. -/
def cxQ : Mtx := ⟨2, 2, fun i j => if i = 0 ∧ j = 0 then -5 else 0⟩

/-- 2×2 input family: `R = [[1]]`. -/
def cxR : Mtx := ⟨1, 1, fun _ _ => 1⟩

/-- 2×2 input family: `N = 0` (2×1). -/
def cxN : Mtx := ⟨2, 1, fun _ _ => 0⟩

/-! ## Loop lemmas -/

/-- The loop body's update expressed with the precomputed matrices of
`compGainMatrix`, as a function of the original inputs. -/
def stepP (A B Q R N : Mtx) (P : Mtx) : Mtx :=
  riccatiUpdate (Acal A B R N) (Acal A B R N).transpose B B.transpose R (Qcal Q R N) P

/-- The loop of `compGainMatrix`, started from an arbitrary state. -/
def loopFrom (A B Q R N : Mtx) (eps : ℚ) (fuel : Nat) (P Pold : Mtx) (n : Nat) :
    Option (Mtx × Nat) :=
  riccatiLoop (Acal A B R N) (Acal A B R N).transpose B B.transpose R (Qcal Q R N)
    eps fuel P Pold n

section LoopLemmas

variable (A B Q R N : Mtx) (eps : ℚ)

theorem Pseq_zero : Pseq A B Q R N 0 = Q := rfl

theorem stepP_Pseq (k : Nat) :
    stepP A B Q R N (Pseq A B Q R N k) = Pseq A B Q R N (k + 1) := rfl

theorem loopFrom_zero (P Pold : Mtx) (n : Nat) :
    loopFrom A B Q R N eps 0 P Pold n = none := rfl

theorem loopFrom_succ (fuel : Nat) (P Pold : Mtx) (n : Nat) :
    loopFrom A B Q R N eps (fuel + 1) P Pold n =
      if |((stepP A B Q R N P) - Pold).maxCoeff| < eps then some (stepP A B Q R N P, n + 1)
      else loopFrom A B Q R N eps fuel (stepP A B Q R N P) (stepP A B Q R N P) (n + 1) := rfl

theorem loopFrom_counter_lt :
    ∀ fuel P Pold n r, loopFrom A B Q R N eps fuel P Pold n = some r → n < r.2 := by
  intro fuel
  induction fuel with
  | zero =>
    intro P Pold n r h
    rw [loopFrom_zero] at h
    exact absurd h (by simp)
  | succ f ih =>
    intro P Pold n r h
    rw [loopFrom_succ] at h
    split at h
    · injection h with h'
      subst h'
      exact Nat.lt_succ_self n
    · exact Nat.lt_trans (Nat.lt_succ_self n) (ih _ _ _ _ h)

theorem loopFrom_sound :
    ∀ fuel k P' n',
      loopFrom A B Q R N eps fuel (Pseq A B Q R N k) (Pseq A B Q R N k) k = some (P', n') →
      k < n' ∧ P' = Pseq A B Q R N n' ∧ stopAt A B Q R N eps (n' - 1) ∧
        ∀ j, k ≤ j → j + 1 < n' → ¬ stopAt A B Q R N eps j := by
  intro fuel
  induction fuel with
  | zero =>
    intro k P' n' h
    rw [loopFrom_zero] at h
    exact absurd h (by simp)
  | succ f ih =>
    intro k P' n' h
    rw [loopFrom_succ, stepP_Pseq] at h
    split at h
    case isTrue hc =>
      injection h with h'
      injection h' with h1 h2
      subst h1
      subst h2
      refine ⟨Nat.lt_succ_self k, rfl, hc, ?_⟩
      intro j hkj hj1
      exact absurd hj1 (by omega)
    case isFalse hc =>
      obtain ⟨h1, h2, h3, h4⟩ := ih (k + 1) P' n' h
      refine ⟨by omega, h2, h3, ?_⟩
      intro j hkj hj1
      rcases Nat.eq_or_lt_of_le hkj with he | hlt
      · subst he
        exact hc
      · exact h4 j hlt hj1

theorem loopFrom_complete :
    ∀ m k, stopAt A B Q R N eps (k + m) →
      (∀ j, k ≤ j → j < k + m → ¬ stopAt A B Q R N eps j) →
      loopFrom A B Q R N eps (m + 1) (Pseq A B Q R N k) (Pseq A B Q R N k) k =
        some (Pseq A B Q R N (k + m + 1), k + m + 1) := by
  intro m
  induction m with
  | zero =>
    intro k hstop _
    rw [loopFrom_succ, stepP_Pseq]
    exact if_pos hstop
  | succ m ih =>
    intro k hstop hmin
    rw [loopFrom_succ, stepP_Pseq]
    have hc : ¬ (|(Pseq A B Q R N (k + 1) - Pseq A B Q R N k).maxCoeff| < eps) :=
      hmin k Nat.le.refl (by omega)
    rw [if_neg hc]
    have h1 : k + 1 + m = k + (m + 1) := by omega
    have hrec := ih (k + 1) (by rw [h1]; exact hstop)
      (fun j hj hj2 => hmin j (by omega) (by omega))
    rw [h1] at hrec
    exact hrec

theorem loopFrom_never (h : ∀ j, ¬ stopAt A B Q R N eps j) :
    ∀ fuel k, loopFrom A B Q R N eps fuel (Pseq A B Q R N k) (Pseq A B Q R N k) k = none := by
  intro fuel
  induction fuel with
  | zero => intro k; rfl
  | succ f ih =>
    intro k
    rw [loopFrom_succ, stepP_Pseq]
    have hc : ¬ (|(Pseq A B Q R N (k + 1) - Pseq A B Q R N k).maxCoeff| < eps) := h k
    rw [if_neg hc]
    exact ih (k + 1)

theorem compGainMatrix_ok (h : ¬ dimsMismatch A B Q R N) (K0 : Mtx) (fuel : Nat) :
    compGainMatrix A B Q R N K0 eps fuel =
      match loopFrom A B Q R N eps fuel Q Q 0 with
      | none => none
      | some (P, numIterations) =>
        some (true, Mtx.inv (R + B.transpose * P * B) * (B.transpose * P * A + N.transpose),
          numIterations) := by
  unfold compGainMatrix
  rw [if_neg h]
  rfl

theorem compGainMatrix_bad (h : dimsMismatch A B Q R N) (K0 : Mtx) (fuel : Nat) :
    compGainMatrix A B Q R N K0 eps fuel = some (false, K0, 0) := by
  unfold compGainMatrix
  rw [if_pos h]

end LoopLemmas

theorem loopFrom_sound0 (A B Q R N : Mtx) (eps : ℚ) (fuel : Nat) (P' : Mtx) (n' : Nat)
    (h : loopFrom A B Q R N eps fuel Q Q 0 = some (P', n')) :
    0 < n' ∧ P' = Pseq A B Q R N n' ∧ stopAt A B Q R N eps (n' - 1) ∧
      ∀ j, j + 1 < n' → ¬ stopAt A B Q R N eps j := by
  have h0 : loopFrom A B Q R N eps fuel (Pseq A B Q R N 0) (Pseq A B Q R N 0) 0 =
      some (P', n') := h
  obtain ⟨h1, h2, h3, h4⟩ := loopFrom_sound A B Q R N eps fuel 0 P' n' h0
  exact ⟨h1, h2, h3, fun j hj => h4 j (Nat.zero_le j) hj⟩

theorem specIter_eq_Pseq (A B Q R N : Mtx) :
    ∀ k, specIter A B Q R N k = Pseq A B Q R N k := by
  intro k
  induction k with
  | zero => rfl
  | succ k ih =>
    show specIter A B Q R N (k + 1) = Pseq A B Q R N (k + 1)
    unfold specIter Pseq riccatiUpdate Acal Qcal
    rw [ih]

/-! ## The claims -/

/-- Claim C1, amended: for every dimension-valid input, the iteration loop
stops exactly at the first iterate whose successive difference
`Δ = P_next − P_prev` satisfies `|Δ.maxCoeff| < eps`, i.e. the absolute
value of the largest *signed* entry of `Δ` falls below the threshold
(`fabs(delta.maxCoeff())` in the code), and continues otherwise.  This is
not the infinity-style norm of the claim as stated: see the
counterexample. -/
theorem loop_stops_iff_abs_maxCoeff_lt (A B Q R N K0 : Mtx) (eps : ℚ) (n : Nat)
    (hdims : ¬ dimsMismatch A B Q R N) :
    (∃ fuel K, compGainMatrix A B Q R N K0 eps fuel = some (true, K, n)) ↔
      (1 ≤ n ∧ |(Pseq A B Q R N n - Pseq A B Q R N (n - 1)).maxCoeff| < eps ∧
        ∀ j, j + 1 < n → ¬ |(Pseq A B Q R N (j + 1) - Pseq A B Q R N j).maxCoeff| < eps) := by
  constructor
  · rintro ⟨fuel, K, h⟩
    rw [compGainMatrix_ok A B Q R N eps hdims] at h
    rcases hl : loopFrom A B Q R N eps fuel Q Q 0 with _ | ⟨P, m⟩ <;> rw [hl] at h
    · simp at h
    · obtain ⟨h1, _, h3, h4⟩ := loopFrom_sound0 A B Q R N eps fuel P m hl
      have hm : m = n := (Prod.mk.inj (Prod.mk.inj (Option.some.inj h)).2).2
      subst hm
      have he : m - 1 + 1 = m := by omega
      refine ⟨h1, ?_, fun j hj => h4 j hj⟩
      have h3' : |(Pseq A B Q R N (m - 1 + 1) - Pseq A B Q R N (m - 1)).maxCoeff| < eps := h3
      rw [he] at h3'
      exact h3'
  · rintro ⟨h1, h2, h3⟩
    have he : 0 + (n - 1) + 1 = n := by omega
    have hstop : stopAt A B Q R N eps (0 + (n - 1)) := by
      show |(Pseq A B Q R N (0 + (n - 1) + 1) - Pseq A B Q R N (0 + (n - 1))).maxCoeff| < eps
      rw [he, show 0 + (n - 1) = n - 1 from by omega]
      exact h2
    have hmin : ∀ j, 0 ≤ j → j < 0 + (n - 1) → ¬ stopAt A B Q R N eps j :=
      fun j _ hj => h3 j (by omega)
    have hc := loopFrom_complete A B Q R N eps (n - 1) 0 hstop hmin
    have hc2 : loopFrom A B Q R N eps (n - 1 + 1) Q Q 0 =
        some (Pseq A B Q R N (0 + (n - 1) + 1), 0 + (n - 1) + 1) := hc
    rw [he] at hc2
    refine ⟨n - 1 + 1,
      Mtx.inv (R + B.transpose * Pseq A B Q R N n * B) *
        (B.transpose * Pseq A B Q R N n * A + N.transpose), ?_⟩
    rw [compGainMatrix_ok A B Q R N eps hdims, hc2]

/-- Claim C1, counterexample to the claim as stated: at the concrete
dimension-valid input `cxA, cxB, cxQ, cxR, cxN` with threshold `1`, the call
returns after its very first iteration — the largest signed entry of
`Δ = P₁ − P₀` is `0`, so `fabs(delta.maxCoeff()) = 0 < 1` — although the
infinity-style norm (maximum absolute entry) of the same `Δ` is `5`, far
above the threshold, so the loop as specified by the claim would have had
to continue. -/
theorem loop_stop_is_not_infNorm_cx :
    ¬ dimsMismatch cxA cxB cxQ cxR cxN ∧
      (compGainMatrix cxA cxB cxQ cxR cxN wK0 1 1).map (fun r => (r.1, r.2.2)) =
        some (true, 1) ∧
      |(Pseq cxA cxB cxQ cxR cxN 1 - Pseq cxA cxB cxQ cxR cxN 0).maxCoeff| = 0 ∧
      infNormSpec (Pseq cxA cxB cxQ cxR cxN 1 - Pseq cxA cxB cxQ cxR cxN 0) = 5 ∧
      ¬ infNormSpec (Pseq cxA cxB cxQ cxR cxN 1 - Pseq cxA cxB cxQ cxR cxN 0) < 1 := by
  refine ⟨by decide, by with_unfolding_all rfl, by with_unfolding_all rfl,
    by with_unfolding_all rfl, ?_⟩
  have h : infNormSpec (Pseq cxA cxB cxQ cxR cxN 1 - Pseq cxA cxB cxQ cxR cxN 0) = 5 := by
    with_unfolding_all rfl
  rw [h]
  decide

/-- Witness for `loop_stops_iff_abs_maxCoeff_lt` at the scalar test system:
it converges on the first pass. -/
theorem loop_stops_iff_abs_maxCoeff_lt_witness :
    ∃ fuel K, compGainMatrix wA wB wQ wR wN wK0 1 fuel = some (true, K, 1) := by
  refine (loop_stops_iff_abs_maxCoeff_lt wA wB wQ wR wN wK0 1 1 (by decide)).mpr
    ⟨Nat.le.refl, ?_, fun j hj => absurd hj (by omega)⟩
  have h : |(Pseq wA wB wQ wR wN 1 - Pseq wA wB wQ wR wN (1 - 1)).maxCoeff| = 0 := by
    with_unfolding_all rfl
  rw [h]
  decide

/-- Claim C2: on every successful return the solver has run exactly the
spec's iteration — `Â` and `Q̂` precomputed, `P` initialized to `Q`, each
pass applying the Riccati recurrence — so the gain is computed from the
`n`-th spec iterate, the count is at least one, and the pass that ended the
loop compared the new iterate against the previous one (`P_prev`), which is
only advanced on non-converged passes. -/
theorem gain_from_spec_recurrence (A B Q R N K0 : Mtx) (eps : ℚ) (fuel : Nat) (K : Mtx)
    (n : Nat) (h : compGainMatrix A B Q R N K0 eps fuel = some (true, K, n)) :
    1 ≤ n ∧
      K = Mtx.inv (R + B.transpose * specIter A B Q R N n * B) *
          (B.transpose * specIter A B Q R N n * A + N.transpose) ∧
      |(specIter A B Q R N n - specIter A B Q R N (n - 1)).maxCoeff| < eps := by
  by_cases hd : dimsMismatch A B Q R N
  · rw [compGainMatrix_bad A B Q R N eps hd K0 fuel] at h
    exact Bool.noConfusion (Prod.mk.inj (Option.some.inj h)).1
  · rw [compGainMatrix_ok A B Q R N eps hd] at h
    rcases hl : loopFrom A B Q R N eps fuel Q Q 0 with _ | ⟨P, m⟩ <;> rw [hl] at h
    · simp at h
    · obtain ⟨h1, h2, h3, _⟩ := loopFrom_sound0 A B Q R N eps fuel P m hl
      have hinj := Option.some.inj h
      have hm : m = n := (Prod.mk.inj (Prod.mk.inj hinj).2).2
      have hK : Mtx.inv (R + B.transpose * P * B) * (B.transpose * P * A + N.transpose) = K :=
        (Prod.mk.inj (Prod.mk.inj hinj).2).1
      subst hm
      refine ⟨h1, ?_, ?_⟩
      · rw [← hK, h2, specIter_eq_Pseq]
      · rw [specIter_eq_Pseq, specIter_eq_Pseq]
        have he : m - 1 + 1 = m := by omega
        have h3' : |(Pseq A B Q R N (m - 1 + 1) - Pseq A B Q R N (m - 1)).maxCoeff| < eps := h3
        rw [he] at h3'
        exact h3'

/-- Witness for `gain_from_spec_recurrence` at the scalar test system. -/
theorem gain_from_spec_recurrence_witness :
    1 ≤ 1 ∧
      Mtx.inv (wR + wB.transpose * Pseq wA wB wQ wR wN 1 * wB) *
          (wB.transpose * Pseq wA wB wQ wR wN 1 * wA + wN.transpose) =
        Mtx.inv (wR + wB.transpose * specIter wA wB wQ wR wN 1 * wB) *
          (wB.transpose * specIter wA wB wQ wR wN 1 * wA + wN.transpose) ∧
      |(specIter wA wB wQ wR wN 1 - specIter wA wB wQ wR wN (1 - 1)).maxCoeff| < 1 :=
  gain_from_spec_recurrence wA wB wQ wR wN wK0 1 1 _ 1 (by with_unfolding_all rfl)

/-- Claim C3: whenever the loop terminates with solution `P` after `n`
iterations, the call succeeds and the returned gain is
`K = (R + Bᵗ·P·B)⁻¹ · (Bᵗ·P·A + Nᵗ)`, built from the original `A` and `N`,
not from `Acal`/`Qcal`. -/
theorem gain_uses_original_A_and_N (A B Q R N K0 : Mtx) (eps : ℚ) (fuel : Nat) (P : Mtx)
    (n : Nat) (hdims : ¬ dimsMismatch A B Q R N)
    (hloop : riccatiLoop (Acal A B R N) (Acal A B R N).transpose B B.transpose R (Qcal Q R N)
        eps fuel Q Q 0 = some (P, n)) :
    compGainMatrix A B Q R N K0 eps fuel =
      some (true, Mtx.inv (R + B.transpose * P * B) *
        (B.transpose * P * A + N.transpose), n) := by
  rw [compGainMatrix_ok A B Q R N eps hdims]
  have hl : loopFrom A B Q R N eps fuel Q Q 0 = some (P, n) := hloop
  rw [hl]

/-- Witness for `gain_uses_original_A_and_N` at the scalar test system. -/
theorem gain_uses_original_A_and_N_witness :
    compGainMatrix wA wB wQ wR wN wK0 1 1 =
      some (true, Mtx.inv (wR + wB.transpose * Pseq wA wB wQ wR wN 1 * wB) *
        (wB.transpose * Pseq wA wB wQ wR wN 1 * wA + wN.transpose), 1) :=
  gain_uses_original_A_and_N wA wB wQ wR wN wK0 1 1 (Pseq wA wB wQ wR wN 1) 1 (by decide)
    (by with_unfolding_all rfl)

/-- Claim C4: the call returns the failure flag exactly when one of the
shape relations is violated, and with compatible shapes every value it
returns carries the success flag — shape mismatch is the only recognized
failure. -/
theorem failure_iff_shape_violation (A B Q R N K0 : Mtx) (eps : ℚ) :
    ((∃ fuel Kv n, compGainMatrix A B Q R N K0 eps fuel = some (false, Kv, n)) ↔
      dimsMismatch A B Q R N) ∧
    (¬ dimsMismatch A B Q R N →
      ∀ fuel b Kv n, compGainMatrix A B Q R N K0 eps fuel = some (b, Kv, n) → b = true) := by
  constructor
  · constructor
    · rintro ⟨fuel, Kv, n, h⟩
      by_contra hd
      rw [compGainMatrix_ok A B Q R N eps hd] at h
      rcases hl : loopFrom A B Q R N eps fuel Q Q 0 with _ | ⟨P, m⟩ <;> rw [hl] at h
      · simp at h
      · exact Bool.noConfusion (Prod.mk.inj (Option.some.inj h)).1
    · intro hd
      exact ⟨0, K0, 0, compGainMatrix_bad A B Q R N eps hd K0 0⟩
  · intro hd fuel b Kv n h
    rw [compGainMatrix_ok A B Q R N eps hd] at h
    rcases hl : loopFrom A B Q R N eps fuel Q Q 0 with _ | ⟨P, m⟩ <;> rw [hl] at h
    · simp at h
    · exact ((Prod.mk.inj (Option.some.inj h)).1).symm

/-- Witness for `failure_iff_shape_violation`: a 2×2 `R` against a
single-column `B` is rejected. -/
theorem failure_iff_shape_violation_witness :
    ∃ fuel Kv n, compGainMatrix wA wB wQ wR2 wN wK0 1 fuel = some (false, Kv, n) :=
  (failure_iff_shape_violation wA wB wQ wR2 wN wK0 1).1.mpr (by decide)

/-- Claim C5: on any shape violation the call fails immediately: for every
fuel (even zero, i.e. before any iteration work), the flag is `false`, the
output parameter still holds its prior contents `K0`, and no iteration was
counted. -/
theorem shape_failure_no_output (A B Q R N K0 : Mtx) (eps : ℚ)
    (h : dimsMismatch A B Q R N) (fuel : Nat) :
    compGainMatrix A B Q R N K0 eps fuel = some (false, K0, 0) :=
  compGainMatrix_bad A B Q R N eps h K0 fuel

/-- Witness for `shape_failure_no_output` at the mismatched-R input. -/
theorem shape_failure_no_output_witness :
    compGainMatrix wA wB wQ wR2 wN wK0 1 0 = some (false, wK0, 0) :=
  shape_failure_no_output wA wB wQ wR2 wN wK0 1 (by decide) 0

/-- Claim C6: there is no iteration cap — for a dimension-valid input the
call returns (for some fuel) precisely when the convergence test holds at
some iteration; if the test never holds, no amount of fuel makes the call
return, i.e. the C++ loop runs forever. -/
theorem no_iteration_cap (A B Q R N K0 : Mtx) (eps : ℚ)
    (hd : ¬ dimsMismatch A B Q R N) :
    (∃ fuel r, compGainMatrix A B Q R N K0 eps fuel = some r) ↔
      ∃ k, stopAt A B Q R N eps k := by
  constructor
  · rintro ⟨fuel, r, h⟩
    rw [compGainMatrix_ok A B Q R N eps hd] at h
    rcases hl : loopFrom A B Q R N eps fuel Q Q 0 with _ | ⟨P, m⟩ <;> rw [hl] at h
    · simp at h
    · obtain ⟨_, _, h3, _⟩ := loopFrom_sound0 A B Q R N eps fuel P m hl
      exact ⟨m - 1, h3⟩
  · rintro ⟨k, hk⟩
    have hex : ∃ j, stopAt A B Q R N eps j := ⟨k, hk⟩
    have hstop : stopAt A B Q R N eps (0 + Nat.find hex) := by
      rw [Nat.zero_add]
      exact Nat.find_spec hex
    have hmin : ∀ j, 0 ≤ j → j < 0 + Nat.find hex → ¬ stopAt A B Q R N eps j :=
      fun j _ hj => Nat.find_min hex (by omega)
    have hc := loopFrom_complete A B Q R N eps (Nat.find hex) 0 hstop hmin
    have hc2 : loopFrom A B Q R N eps (Nat.find hex + 1) Q Q 0 =
        some (Pseq A B Q R N (0 + Nat.find hex + 1), 0 + Nat.find hex + 1) := hc
    refine ⟨Nat.find hex + 1,
      (true, Mtx.inv (R + B.transpose * Pseq A B Q R N (0 + Nat.find hex + 1) * B) *
        (B.transpose * Pseq A B Q R N (0 + Nat.find hex + 1) * A + N.transpose),
        0 + Nat.find hex + 1), ?_⟩
    rw [compGainMatrix_ok A B Q R N eps hd, hc2]

/-- Witness for `no_iteration_cap` at the scalar test system (the test
holds at the first iteration, so some fuel returns). -/
theorem no_iteration_cap_witness :
    ∃ fuel r, compGainMatrix wA wB wQ wR wN wK0 1 fuel = some r := by
  refine (no_iteration_cap wA wB wQ wR wN wK0 1 (by decide)).mpr ⟨0, ?_⟩
  show |(Pseq wA wB wQ wR wN 1 - Pseq wA wB wQ wR wN 0).maxCoeff| < 1
  have h : |(Pseq wA wB wQ wR wN 1 - Pseq wA wB wQ wR wN 0).maxCoeff| = 0 := by
    with_unfolding_all rfl
  rw [h]
  decide

/-- Claim C7: the solver is deterministic — equal inputs (matrices,
prior output contents, threshold, fuel) give equal results: same flag, same
written `K`, same iteration count. -/
theorem solve_deterministic (A B Q R N K0 : Mtx) (eps : ℚ) (fuel : Nat)
    (A2 B2 Q2 R2 N2 K02 : Mtx) (eps2 : ℚ) (fuel2 : Nat)
    (hA : A = A2) (hB : B = B2) (hQ : Q = Q2) (hR : R = R2) (hN : N = N2)
    (hK : K0 = K02) (he : eps = eps2) (hf : fuel = fuel2) :
    compGainMatrix A B Q R N K0 eps fuel = compGainMatrix A2 B2 Q2 R2 N2 K02 eps2 fuel2 := by
  subst hA; subst hB; subst hQ; subst hR; subst hN; subst hK; subst he; subst hf
  rfl

/-- Witness for `solve_deterministic` at the scalar test system. -/
theorem solve_deterministic_witness :
    compGainMatrix wA wB wQ wR wN wK0 1 1 = compGainMatrix wA wB wQ wR wN wK0 1 1 :=
  solve_deterministic wA wB wQ wR wN wK0 1 1 wA wB wQ wR wN wK0 1 1
    rfl rfl rfl rfl rfl rfl rfl rfl

/-- Claim C8: with fully consistent shapes (`A : n×n`, `B : n×m`, `Q : n×n`,
`R : m×m`, `N : n×m`), any value the call returns is a success whose written
gain has shape `m×n`. -/
theorem success_and_gain_shape (n m : Nat) (A B Q R N K0 : Mtx) (eps : ℚ) (fuel : Nat)
    (b : Bool) (K : Mtx) (it : Nat)
    (hA1 : A.rows = n) (hA2 : A.cols = n) (hB1 : B.rows = n) (hB2 : B.cols = m)
    (hQ1 : Q.rows = n) (hQ2 : Q.cols = n) (hR1 : R.rows = m) (hR2 : R.cols = m)
    (hN1 : N.rows = n) (hN2 : N.cols = m)
    (hrun : compGainMatrix A B Q R N K0 eps fuel = some (b, K, it)) :
    b = true ∧ K.rows = m ∧ K.cols = n := by
  have hd : ¬ dimsMismatch A B Q R N := by
    simp [dimsMismatch, hA1, hA2, hB1, hB2, hQ1, hQ2, hR1, hR2, hN1, hN2]
  rw [compGainMatrix_ok A B Q R N eps hd] at hrun
  rcases hl : loopFrom A B Q R N eps fuel Q Q 0 with _ | ⟨P, m'⟩ <;> rw [hl] at hrun
  · simp at hrun
  · have hinj := Option.some.inj hrun
    have hb : true = b := (Prod.mk.inj hinj).1
    have hK : Mtx.inv (R + B.transpose * P * B) * (B.transpose * P * A + N.transpose) = K :=
      (Prod.mk.inj (Prod.mk.inj hinj).2).1
    refine ⟨hb.symm, ?_, ?_⟩
    · rw [← hK]
      exact hR1
    · rw [← hK]
      exact hA2

/-- Witness for `success_and_gain_shape` at the scalar test system
(`n = m = 1`). -/
theorem success_and_gain_shape_witness :
    true = true ∧
      (Mtx.inv (wR + wB.transpose * Pseq wA wB wQ wR wN 1 * wB) *
        (wB.transpose * Pseq wA wB wQ wR wN 1 * wA + wN.transpose)).rows = 1 ∧
      (Mtx.inv (wR + wB.transpose * Pseq wA wB wQ wR wN 1 * wB) *
        (wB.transpose * Pseq wA wB wQ wR wN 1 * wA + wN.transpose)).cols = 1 :=
  success_and_gain_shape 1 1 wA wB wQ wR wN wK0 1 1 true _ 1
    rfl rfl rfl rfl rfl rfl rfl rfl rfl rfl (by with_unfolding_all rfl)

/-- Claim C9: every successful return has iteration count at least one: the
loop body runs (and the recurrence is applied) before the convergence test
is first evaluated, even when `P = Q` is already a fixed point. -/
theorem success_iterations_pos (A B Q R N K0 : Mtx) (eps : ℚ) (fuel : Nat) (K : Mtx)
    (k : Nat) (h : compGainMatrix A B Q R N K0 eps fuel = some (true, K, k)) : 1 ≤ k := by
  by_cases hd : dimsMismatch A B Q R N
  · rw [compGainMatrix_bad A B Q R N eps hd K0 fuel] at h
    exact Bool.noConfusion (Prod.mk.inj (Option.some.inj h)).1
  · rw [compGainMatrix_ok A B Q R N eps hd] at h
    rcases hl : loopFrom A B Q R N eps fuel Q Q 0 with _ | ⟨P, m⟩ <;> rw [hl] at h
    · simp at h
    · have hlt := loopFrom_counter_lt A B Q R N eps fuel Q Q 0 (P, m) hl
      have hlt2 : 0 < m := hlt
      have hm : m = k := (Prod.mk.inj (Prod.mk.inj (Option.some.inj h)).2).2
      omega

/-- Witness for `success_iterations_pos` at the scalar test system, whose
initial `P = Q` is already a fixed point of the recurrence and which still
reports one iteration. -/
theorem success_iterations_pos_witness : 1 ≤ 1 :=
  success_iterations_pos wA wB wQ wR wN wK0 1 1
    (Mtx.inv (wR + wB.transpose * Pseq wA wB wQ wR wN 1 * wB) *
      (wB.transpose * Pseq wA wB wQ wR wN 1 * wA + wN.transpose)) 1
    (by with_unfolding_all rfl)

/-- Claim C10: the threshold is never validated — on any dimension-valid
input with `eps ≤ 0` the stopping comparison `|Δ.maxCoeff| < eps` can never
hold (an absolute value is non-negative), so no fuel suffices for the call
to return: the C++ loop never exits. -/
theorem nonpositive_eps_never_returns (A B Q R N K0 : Mtx) (eps : ℚ)
    (hd : ¬ dimsMismatch A B Q R N) (he : eps ≤ 0) (fuel : Nat) :
    compGainMatrix A B Q R N K0 eps fuel = none := by
  have hnever : ∀ j, ¬ stopAt A B Q R N eps j := by
    intro j hs
    have h0 : eps ≤ |(Pseq A B Q R N (j + 1) - Pseq A B Q R N j).maxCoeff| :=
      le_trans he (abs_nonneg _)
    exact absurd hs (not_lt.mpr h0)
  rw [compGainMatrix_ok A B Q R N eps hd]
  have h0 : loopFrom A B Q R N eps fuel Q Q 0 = none :=
    loopFrom_never A B Q R N eps hnever fuel 0
  rw [h0]

/-- Witness for `nonpositive_eps_never_returns`: with `eps = 0` the scalar
test system never returns within five iterations. -/
theorem nonpositive_eps_never_returns_witness :
    compGainMatrix wA wB wQ wR wN wK0 0 5 = none :=
  nonpositive_eps_never_returns wA wB wQ wR wN wK0 0 (by decide) (le_refl 0) 5
